import Mathlib

/-!
Verification of the AffiliateBot deal-matching, validation and posting
pipeline. Strings are embedded as lists of Unicode code points (natural
numbers); prices as rationals. Each definition is a shallow embedding of
the correspondingly named Python function.
-/

set_option autoImplicit false

namespace AffiliateBot

/-- Code points of a string literal, used to write concrete titles. -/
def codes (s : String) : List Nat := s.data.map Char.toNat

/-! ### Title normalization (validation_service._normalize_title_for_matching)

The Python function: lowercase, strip; replace the characters in the
regex class [-:;–—] with a space; delete every character that is not a
word character, whitespace or an apostrophe; collapse whitespace runs to
a single space; strip again.  Characters are modeled by code point; the
ASCII case of Python's str.lower, \w and \s is embedded. -/

/-- The five characters of the regex class [-:;–—]: hyphen, colon,
semicolon, en dash, em dash. -/
def isDashChar (c : Nat) : Bool :=
  c = 45 || c = 58 || c = 59 || c = 8211 || c = 8212

/-- Whitespace as in the regex class \s (ASCII): space, tab, newline,
vertical tab, form feed, carriage return. -/
def isSpaceChar (c : Nat) : Bool :=
  c = 32 || c = 9 || c = 10 || c = 11 || c = 12 || c = 13

/-- Word characters as in the regex class \w (ASCII): letters, digits,
underscore. -/
def isWordChar (c : Nat) : Bool :=
  (97 ≤ c && c ≤ 122) || (65 ≤ c && c ≤ 90) || (48 ≤ c && c ≤ 57) || c = 95

/-- Characters kept by re.sub(r'[^\w\s\']', ''): word characters,
whitespace, apostrophe (39). -/
def keepChar (c : Nat) : Bool :=
  isWordChar c || isSpaceChar c || c = 39

/-- str.lower on one character (ASCII range). -/
def lowerChar (c : Nat) : Nat :=
  if 65 ≤ c ∧ c ≤ 90 then c + 32 else c

/-- re.sub(r'[-:;–—]', ' ') on one character. -/
def dashToSpace (c : Nat) : Nat :=
  if isDashChar c then 32 else c

/-- str.strip: drop leading and trailing whitespace. -/
def stripStr (s : List Nat) : List Nat :=
  ((s.dropWhile isSpaceChar).reverse.dropWhile isSpaceChar).reverse

/-- re.sub(r'\s+', ' '): each maximal whitespace run becomes one space.
The flag records whether the previous character was whitespace. -/
def collapseWsAux : Bool → List Nat → List Nat
  | _, [] => []
  | prevSpace, c :: rest =>
    if isSpaceChar c then
      if prevSpace then collapseWsAux true rest
      else 32 :: collapseWsAux true rest
    else c :: collapseWsAux false rest

/-- validation_service._normalize_title_for_matching. -/
def normalize_title_for_matching (s : List Nat) : List Nat :=
  stripStr (collapseWsAux false
    (((stripStr (s.map lowerChar)).map dashToSpace).filter keepChar))

example :
    normalize_title_for_matching (codes "Cronos: The New Dawn - Deluxe Edition")
      = normalize_title_for_matching (codes "Cronos The New Dawn Deluxe Edition") := by
  decide

example :
    normalize_title_for_matching (codes "  Foo   BAR!! ")
      = codes "foo bar" := by
  decide

/-! ### Helper lemmas for normalization idempotence -/

/-- No two adjacent whitespace characters. -/
def noTwoSpaces (a b : Nat) : Prop := ¬(isSpaceChar a = true ∧ isSpaceChar b = true)

theorem lowerChar_idem (c : Nat) : lowerChar (lowerChar c) = lowerChar c := by
  unfold lowerChar
  split_ifs <;> omega

theorem dashToSpace_not_dash (c : Nat) : isDashChar (dashToSpace c) = false := by
  unfold dashToSpace
  split_ifs with h
  · decide
  · simpa using h

theorem map_eq_self_of_mem {α : Type} {f : α → α} :
    ∀ {l : List α}, (∀ a ∈ l, f a = a) → l.map f = l
  | [], _ => rfl
  | a :: l, h => by
    simp only [List.map_cons, h a (by simp)]
    rw [map_eq_self_of_mem fun b hb => h b (by simp [hb])]

theorem dropWhile_head {p : Nat → Bool} :
    ∀ {l : List Nat} {c : Nat}, (l.dropWhile p).head? = some c → p c = false := by
  intro l
  induction l with
  | nil => simp [List.dropWhile]
  | cons x xs ih =>
    intro c h
    rw [List.dropWhile_cons] at h
    split at h
    · exact ih h
    · simp only [List.head?_cons, Option.some.injEq] at h
      subst h
      rename_i hx
      exact Bool.not_eq_true _ ▸ (by simpa using hx)

theorem dropWhile_eq_self_of_head {p : Nat → Bool} {l : List Nat}
    (h : ∀ c, l.head? = some c → p c = false) : l.dropWhile p = l := by
  cases l with
  | nil => rfl
  | cons x xs =>
    rw [List.dropWhile_cons, if_neg]
    simp [h x rfl]

theorem getLast?_dropWhile_of_ne_nil {p : Nat → Bool} :
    ∀ {l : List Nat}, l.dropWhile p ≠ [] → (l.dropWhile p).getLast? = l.getLast? := by
  intro l
  induction l with
  | nil => intro hne; simp [List.dropWhile] at hne
  | cons x xs ih =>
    intro hne
    by_cases hx : p x = true
    · rw [List.dropWhile_cons, if_pos hx] at hne ⊢
      have hxs : xs ≠ [] := by
        intro h
        subst h
        simp [List.dropWhile] at hne
      rw [ih hne]
      cases xs with
      | nil => exact absurd rfl hxs
      | cons y ys => exact (List.getLast?_cons_cons).symm
    · rw [List.dropWhile_cons, if_neg hx]

theorem mem_stripStr {c : Nat} {l : List Nat} (h : c ∈ stripStr l) : c ∈ l := by
  unfold stripStr at h
  rw [List.mem_reverse] at h
  have h1 := (List.dropWhile_sublist isSpaceChar).subset h
  rw [List.mem_reverse] at h1
  exact (List.dropWhile_sublist isSpaceChar).subset h1

theorem stripStr_head {l : List Nat} {c : Nat}
    (h : (stripStr l).head? = some c) : isSpaceChar c = false := by
  unfold stripStr at h
  rw [List.head?_reverse] at h
  have hne : (l.dropWhile isSpaceChar).reverse.dropWhile isSpaceChar ≠ [] := by
    intro hnil
    rw [hnil] at h
    simp at h
  rw [getLast?_dropWhile_of_ne_nil hne, List.getLast?_reverse] at h
  exact dropWhile_head h

theorem stripStr_last {l : List Nat} {c : Nat}
    (h : (stripStr l).getLast? = some c) : isSpaceChar c = false := by
  unfold stripStr at h
  rw [List.getLast?_reverse] at h
  exact dropWhile_head h

theorem stripStr_eq_self {l : List Nat}
    (hh : ∀ c, l.head? = some c → isSpaceChar c = false)
    (hl : ∀ c, l.getLast? = some c → isSpaceChar c = false) : stripStr l = l := by
  unfold stripStr
  rw [dropWhile_eq_self_of_head hh]
  rw [dropWhile_eq_self_of_head (by intro c hc; rw [List.head?_reverse] at hc; exact hl c hc)]
  exact List.reverse_reverse l

theorem mem_collapseWsAux {c : Nat} :
    ∀ {b : Bool} {l : List Nat}, c ∈ collapseWsAux b l →
      c = 32 ∨ (c ∈ l ∧ isSpaceChar c = false) := by
  intro b l
  induction l generalizing b with
  | nil => simp [collapseWsAux]
  | cons x xs ih =>
    intro h
    unfold collapseWsAux at h
    split at h
    · split at h
      · rcases ih h with h32 | ⟨hm, hs⟩
        · exact Or.inl h32
        · exact Or.inr ⟨by simp [hm], hs⟩
      · rcases List.mem_cons.mp h with h32 | h'
        · exact Or.inl h32
        · rcases ih h' with h32 | ⟨hm, hs⟩
          · exact Or.inl h32
          · exact Or.inr ⟨by simp [hm], hs⟩
    · rcases List.mem_cons.mp h with hcx | h'
      · subst hcx
        rename_i hx
        exact Or.inr ⟨by simp, by simpa using hx⟩
      · rcases ih h' with h32 | ⟨hm, hs⟩
        · exact Or.inl h32
        · exact Or.inr ⟨by simp [hm], hs⟩

theorem collapseWsAux_head_true :
    ∀ {l : List Nat} {c : Nat}, (collapseWsAux true l).head? = some c →
      isSpaceChar c = false := by
  intro l
  induction l with
  | nil => simp [collapseWsAux]
  | cons x xs ih =>
    intro c h
    unfold collapseWsAux at h
    split at h
    · exact ih h
    · simp only [List.head?_cons, Option.some.injEq] at h
      subst h
      rename_i hx
      simpa using hx

theorem collapseWsAux_chain :
    ∀ (b : Bool) (l : List Nat), List.Chain' noTwoSpaces (collapseWsAux b l) := by
  intro b l
  induction l generalizing b with
  | nil => simp [collapseWsAux]
  | cons x xs ih =>
    unfold collapseWsAux
    split
    · split
      · exact ih true
      · rw [List.chain'_cons']
        refine ⟨?_, ih true⟩
        intro y hy
        have : isSpaceChar y = false := collapseWsAux_head_true hy
        intro hcon
        rw [this] at hcon
        exact Bool.false_ne_true hcon.2
    · rw [List.chain'_cons']
      refine ⟨?_, ih false⟩
      intro y hy
      rename_i hx
      intro hcon
      exact hx hcon.1

theorem collapseWsAux_eq_self :
    ∀ (b : Bool) (l : List Nat),
      (∀ c ∈ l, isSpaceChar c = true → c = 32) →
      List.Chain' noTwoSpaces l →
      (b = true → ∀ c, l.head? = some c → isSpaceChar c = false) →
      collapseWsAux b l = l := by
  intro b l
  induction l generalizing b with
  | nil => intro _ _ _; rfl
  | cons x xs ih =>
    intro h32 hch hb
    unfold collapseWsAux
    rw [List.chain'_cons'] at hch
    split
    · rename_i hx
      cases b with
      | true => exact absurd (hb rfl x rfl) (by simp [hx])
      | false =>
        simp only [if_neg Bool.false_ne_true]
        have hx32 : x = 32 := h32 x (by simp) hx
        subst hx32
        rw [ih true (fun c hc hs => h32 c (by simp [hc]) hs) hch.2 ?_]
        intro _ c hc
        have := hch.1 c hc
        unfold noTwoSpaces at this
        by_contra hcs
        exact this ⟨hx, by simpa using hcs⟩
    · rw [ih false (fun c hc hs => h32 c (by simp [hc]) hs) hch.2 (by intro h; exact absurd h (by simp))]

theorem chain'_stripStr {l : List Nat} (h : List.Chain' noTwoSpaces l) :
    List.Chain' noTwoSpaces (stripStr l) := by
  unfold stripStr
  have flipEq : ∀ (m : List Nat), List.Chain' noTwoSpaces m → List.Chain' (flip noTwoSpaces) m := by
    intro m hm
    exact hm.imp (by intro a b hab hcon; exact hab ⟨hcon.2, hcon.1⟩)
  have h1 : List.Chain' noTwoSpaces (l.dropWhile isSpaceChar) :=
    h.suffix (List.dropWhile_suffix isSpaceChar)
  have h2 : List.Chain' noTwoSpaces (l.dropWhile isSpaceChar).reverse :=
    List.chain'_reverse.mpr (flipEq _ h1)
  have h3 : List.Chain' noTwoSpaces ((l.dropWhile isSpaceChar).reverse.dropWhile isSpaceChar) :=
    h2.suffix (List.dropWhile_suffix isSpaceChar)
  exact List.chain'_reverse.mpr (flipEq _ h3)

theorem dashToSpace_eq_self {c : Nat} (h : isDashChar c = false) : dashToSpace c = c := by
  unfold dashToSpace
  simp [h]

theorem normalize_eq_self {l : List Nat}
    (hlow : ∀ c ∈ l, lowerChar c = c)
    (hdash : ∀ c ∈ l, dashToSpace c = c)
    (hkeep : ∀ c ∈ l, keepChar c = true)
    (hsp : ∀ c ∈ l, isSpaceChar c = true → c = 32)
    (hch : List.Chain' noTwoSpaces l)
    (hh : ∀ c, l.head? = some c → isSpaceChar c = false)
    (hl : ∀ c, l.getLast? = some c → isSpaceChar c = false) :
    normalize_title_for_matching l = l := by
  unfold normalize_title_for_matching
  rw [map_eq_self_of_mem hlow, stripStr_eq_self hh hl, map_eq_self_of_mem hdash,
      List.filter_eq_self.mpr hkeep,
      collapseWsAux_eq_self false l hsp hch (fun h => absurd h Bool.false_ne_true),
      stripStr_eq_self hh hl]

theorem mem_normalize_title {s : List Nat} {c : Nat}
    (hc : c ∈ normalize_title_for_matching s) :
    lowerChar c = c ∧ isDashChar c = false ∧ keepChar c = true := by
  unfold normalize_title_for_matching at hc
  have hc1 := mem_stripStr hc
  rcases mem_collapseWsAux hc1 with h32 | ⟨hK, _⟩
  · subst h32
    exact ⟨by decide, by decide, by decide⟩
  · rw [List.mem_filter] at hK
    obtain ⟨hZ, hkeep⟩ := hK
    rw [List.mem_map] at hZ
    obtain ⟨a, haY, hca⟩ := hZ
    have haA := mem_stripStr haY
    rw [List.mem_map] at haA
    obtain ⟨a0, _, ha0⟩ := haA
    subst hca
    refine ⟨?_, dashToSpace_not_dash a, hkeep⟩
    unfold dashToSpace
    split_ifs
    · decide
    · rw [← ha0]
      exact lowerChar_idem a0

/-- C9: the title normalization function is idempotent:
normalize(normalize(x)) = normalize(x) for every input string x. -/
theorem normalize_title_idempotent (s : List Nat) :
    normalize_title_for_matching (normalize_title_for_matching s)
      = normalize_title_for_matching s := by
  apply normalize_eq_self
  · exact fun c hc => (mem_normalize_title hc).1
  · exact fun c hc => dashToSpace_eq_self (mem_normalize_title hc).2.1
  · exact fun c hc => (mem_normalize_title hc).2.2
  · intro c hc hs
    unfold normalize_title_for_matching at hc
    rcases mem_collapseWsAux (mem_stripStr hc) with h32 | ⟨_, hns⟩
    · exact h32
    · rw [hns] at hs
      exact absurd hs Bool.false_ne_true
  · unfold normalize_title_for_matching
    exact chain'_stripStr (collapseWsAux_chain false _)
  · intro c hc
    unfold normalize_title_for_matching at hc
    exact stripStr_head hc
  · intro c hc
    unfold normalize_title_for_matching at hc
    exact stripStr_last hc

/-! ### Price comparison (validation_service._compare_prices)

The reference price list is the list of (title, price) rows loaded from
the topsellers table; a price is a decimal or NULL, modeled as Option ℚ.
The Python loop scans the rows in order; on the first row whose
normalized title matches, a None or 0.00 price returns False, a price
strictly above the sale price returns True, and otherwise the scan
continues with the remaining rows. -/

def compare_prices (title : List Nat) (price : ℚ) :
    List (List Nat × Option ℚ) → Bool
  | [] => false
  | (st, sp) :: rest =>
    if normalize_title_for_matching title = normalize_title_for_matching st then
      match sp with
      | none => false
      | some p =>
        if p = 0 then false
        else if price < p then true
        else compare_prices title price rest
    else compare_prices title price rest

/-- Modelled from the spec's words (claim C1): validation accepts iff
some reference entry with a matching normalized title has a positive,
non-absent price strictly above the live sale price. -/
def compare_prices_claim (title : List Nat) (price : ℚ)
    (steam : List (List Nat × Option ℚ)) : Prop :=
  ∃ e ∈ steam,
    normalize_title_for_matching e.1 = normalize_title_for_matching title ∧
    ∃ p : ℚ, e.2 = some p ∧ 0 < p ∧ price < p

/-- The ordered characterization that actually holds of the code: the
scan accepts iff some matching entry with nonzero non-absent price above
the sale price exists, and every matching entry before it has a nonzero
non-absent price not above the sale price. -/
def compare_prices_ordered (title : List Nat) (price : ℚ)
    (steam : List (List Nat × Option ℚ)) : Prop :=
  ∃ pre e post, steam = pre ++ e :: post ∧
    normalize_title_for_matching e.1 = normalize_title_for_matching title ∧
    (∃ p : ℚ, e.2 = some p ∧ p ≠ 0 ∧ price < p) ∧
    ∀ e' ∈ pre,
      normalize_title_for_matching e'.1 = normalize_title_for_matching title →
      ∃ q : ℚ, e'.2 = some q ∧ q ≠ 0 ∧ ¬ price < q

theorem compare_prices_ordered_cons {title : List Nat} {price : ℚ}
    {st : List Nat} {sp : Option ℚ} {rest : List (List Nat × Option ℚ)} :
    compare_prices_ordered title price ((st, sp) :: rest) ↔
      (normalize_title_for_matching st = normalize_title_for_matching title ∧
        ∃ p : ℚ, sp = some p ∧ p ≠ 0 ∧ price < p) ∨
      ((normalize_title_for_matching st = normalize_title_for_matching title →
          ∃ q : ℚ, sp = some q ∧ q ≠ 0 ∧ ¬ price < q) ∧
        compare_prices_ordered title price rest) := by
  constructor
  · rintro ⟨pre, e, post, heq, hmatch, hacc, hpre⟩
    cases pre with
    | nil =>
      simp only [List.nil_append, List.cons.injEq] at heq
      obtain ⟨he, hrest⟩ := heq
      subst he
      exact Or.inl ⟨hmatch, hacc⟩
    | cons y pre' =>
      simp only [List.cons_append, List.cons.injEq] at heq
      obtain ⟨hy, hrest⟩ := heq
      subst hy
      refine Or.inr ⟨fun hm => hpre (st, sp) (by simp) hm, ?_⟩
      exact ⟨pre', e, post, hrest, hmatch, hacc, fun e' he' hm => hpre e' (by simp [he']) hm⟩
  · rintro (⟨hmatch, hacc⟩ | ⟨hhead, pre', e, post, hrest, hmatch, hacc, hpre⟩)
    · exact ⟨[], (st, sp), rest, rfl, hmatch, hacc, by simp⟩
    · refine ⟨(st, sp) :: pre', e, post, by simp [hrest], hmatch, hacc, ?_⟩
      intro e' he' hm
      rcases List.mem_cons.mp he' with he' | he'
      · subst he'
        exact hhead hm
      · exact hpre e' he' hm

/-- C1 corrected: the code's acceptance predicate coincides with the
ordered characterization, not with the plain existential of the claim. -/
theorem compare_prices_iff_ordered (title : List Nat) (price : ℚ)
    (steam : List (List Nat × Option ℚ)) :
    compare_prices title price steam = true ↔
      compare_prices_ordered title price steam := by
  induction steam with
  | nil =>
    simp only [compare_prices, Bool.false_eq_true, false_iff]
    rintro ⟨pre, e, post, heq, -⟩
    exact List.not_mem_nil e (heq ▸ List.mem_append_right pre (by simp))
  | cons hd rest ih =>
    obtain ⟨st, sp⟩ := hd
    rw [compare_prices_ordered_cons]
    by_cases hN : normalize_title_for_matching title = normalize_title_for_matching st
    · cases sp with
      | none =>
        simp only [compare_prices, if_pos hN, Bool.false_eq_true, false_iff]
        rintro (⟨-, p, hp, -⟩ | ⟨hhead, -⟩)
        · exact Option.noConfusion hp
        · obtain ⟨q, hq, -⟩ := hhead hN.symm
          exact Option.noConfusion hq
      | some p =>
        by_cases hp0 : p = 0
        · simp only [compare_prices, if_pos hN, if_pos hp0, Bool.false_eq_true, false_iff]
          rintro (⟨-, p', hp', hne, -⟩ | ⟨hhead, -⟩)
          · exact hne ((Option.some.inj hp').symm.trans hp0)
          · obtain ⟨q, hq, hqne, -⟩ := hhead hN.symm
            exact hqne ((Option.some.inj hq).symm.trans hp0)
        · by_cases hlt : price < p
          · simp only [compare_prices, if_pos hN, if_neg hp0, if_pos hlt, true_iff]
            exact Or.inl ⟨hN.symm, p, rfl, hp0, hlt⟩
          · simp only [compare_prices, if_pos hN, if_neg hp0, if_neg hlt]
            rw [ih]
            constructor
            · intro h
              exact Or.inr ⟨fun _ => ⟨p, rfl, hp0, hlt⟩, h⟩
            · rintro (⟨-, p', hp', -, hlt'⟩ | ⟨-, h⟩)
              · exact absurd ((Option.some.inj hp') ▸ hlt') hlt
              · exact h
    · simp only [compare_prices, if_neg hN]
      rw [ih]
      constructor
      · intro h
        exact Or.inr ⟨fun hm => absurd hm.symm hN, h⟩
      · rintro (⟨hm, -⟩ | ⟨-, h⟩)
        · exact absurd hm.symm hN
        · exact h

/-- C1 counterexample: with two reference rows of the same normalized
title, the first free (price 0) and the second priced 10, a sale price
of 5 satisfies the claim's existential but the code rejects, because the
scan stops at the first matching row when its price is zero/absent. -/
theorem compare_prices_claim_counterexample :
    (compare_prices (codes "a") 5 [(codes "a", some 0), (codes "a", some 10)] = false ∧
      compare_prices_claim (codes "a") 5 [(codes "a", some 0), (codes "a", some 10)]) ∧
    (compare_prices (codes "a") (-2) [(codes "a", some (-1))] = true ∧
      ¬ compare_prices_claim (codes "a") (-2) [(codes "a", some (-1))]) := by
  refine ⟨⟨by decide, ⟨(codes "a", some 10), by decide, rfl, 10, rfl, by decide, by decide⟩⟩,
    ⟨by decide, ?_⟩⟩
  rintro ⟨e, he, -, p, hp, hpos, hlt⟩
  rcases List.mem_singleton.mp he with rfl
  have hp' : p = -1 := (Option.some.inj hp).symm
  rw [hp'] at hpos
  norm_num at hpos

/-- Witness for the corrected C1 characterization at a concrete input. -/
theorem compare_prices_iff_ordered_witness :
    compare_prices (codes "a") 5 [(codes "a", some 10)] = true :=
  (compare_prices_iff_ordered (codes "a") 5 [(codes "a", some 10)]).mpr
    ⟨[], (codes "a", some 10), [], rfl, rfl, ⟨10, rfl, by decide, by decide⟩, by simp⟩

/-! ### Data model: catalog rows and deals -/

/-- One row of the affiliate products CSV, with the columns read by
deals_service.find_matching_deals: p_row[0] source, p_row[2] title,
p_row[3] link, p_row[4] image link, p_row[5] availability. -/
structure ProductRow where
  source : List Nat
  title : List Nat
  link : List Nat
  image_link : List Nat
  availability : List Nat
deriving DecidableEq

/-- A deal dictionary as it flows through the pipeline.  The matcher
fills the first four fields; validation may attach discount and
salePrice. -/
structure Deal where
  source : List Nat
  title : List Nat
  link : List Nat
  image_link : List Nat
  discount : Option Int
  salePrice : Option (List Nat)
deriving DecidableEq

/-- The availability test of find_matching_deals:
p_row[5] == "in stock" or p_row[5] == "in_stock". -/
def inStock (a : List Nat) : Bool :=
  a = codes "in stock" || a = codes "in_stock"

/-- The deal object built on a match (deals_service.find_matching_deals). -/
def candidate_of (p : ProductRow) : Deal :=
  { source := p.source, title := p.title, link := p.link,
    image_link := p.image_link, discount := none, salePrice := none }

/-- deals_service.find_matching_deals: for each Steam row's title, for
each product row, on raw title equality and in-stock availability emit a
candidate deal.  Note the comparison target_title == p_row[2] is on the
raw strings. -/
def find_matching_deals (steam_titles : List (List Nat))
    (products : List ProductRow) : List Deal :=
  steam_titles.flatMap fun t =>
    products.filterMap fun p =>
      if t = p.title ∧ inStock p.availability = true then some (candidate_of p)
      else none

/-- C2 corrected: a candidate is emitted iff some reference title equals
the product title as a raw string (no normalization) and the product is
in stock. -/
theorem find_matching_deals_mem (steam_titles : List (List Nat))
    (products : List ProductRow) (d : Deal) :
    d ∈ find_matching_deals steam_titles products ↔
      ∃ t ∈ steam_titles, ∃ p ∈ products,
        t = p.title ∧ inStock p.availability = true ∧ d = candidate_of p := by
  simp only [find_matching_deals, List.mem_flatMap, List.mem_filterMap,
    Option.ite_none_right_eq_some, Option.some.injEq]
  constructor
  · rintro ⟨t, ht, p, hp, ⟨hteq, hstock⟩, hd⟩
    exact ⟨t, ht, p, hp, hteq, hstock, hd.symm⟩
  · rintro ⟨t, ht, p, hp, hteq, hstock, hd⟩
    exact ⟨t, ht, p, hp, ⟨hteq, hstock⟩, hd.symm⟩

/-- The in-stock product row of the C2 counterexample. -/
def productAB : ProductRow :=
  { source := codes "X", title := codes "a b", link := codes "L",
    image_link := codes "I", availability := codes "in stock" }

/-- C2 counterexample: the reference title "a:b" and the catalog title
"a b" normalize identically and the row is in stock, yet the matcher
emits nothing, because it compares raw titles. -/
theorem find_matching_deals_counterexample :
    normalize_title_for_matching (codes "a:b")
        = normalize_title_for_matching (codes "a b") ∧
    inStock productAB.availability = true ∧
    find_matching_deals [codes "a:b"] [productAB] = [] := by
  refine ⟨by decide, by decide, by decide⟩

/-- Witness for the corrected C2 characterization at a concrete input. -/
theorem find_matching_deals_mem_witness :
    candidate_of productAB ∈ find_matching_deals [codes "a b"] [productAB] :=
  (find_matching_deals_mem [codes "a b"] [productAB] (candidate_of productAB)).mpr
    ⟨codes "a b", by decide, productAB, by simp, by decide, by decide, rfl⟩

/-! ### Deduplication and grouping (validation_service._postprocess_deals) -/

instance : Inhabited Deal :=
  ⟨{ source := [], title := [], link := [], image_link := [],
     discount := none, salePrice := none }⟩

/-- The dedup key of _postprocess_deals: the string
f"{title}_{source}", i.e. title, underscore (95), source. -/
def dealKey (d : Deal) : List Nat := d.title ++ 95 :: d.source

/-- Number of occurrences of a dedup key in the list (the deal_counts
dictionary). -/
def keyCount (ds : List Deal) (k : List Nat) : Nat :=
  (ds.filter fun d => dealKey d = k).length

/-- Deals whose dedup key appears exactly once. -/
def nonDuplicates (ds : List Deal) : List Deal :=
  ds.filter fun d => keyCount ds (dealKey d) = 1

/-- The different_sources list: sources in order of first appearance. -/
def sourcesFirstSeen (ds : List Deal) : List (List Nat) :=
  ds.foldl (fun acc d => if d.source ∈ acc then acc else acc ++ [d.source]) []

/-- validation_service._postprocess_deals: drop every deal whose key is
duplicated, then bucket the survivors by source in first-seen order. -/
def postprocess_deals (ds : List Deal) : List (List Deal) :=
  (sourcesFirstSeen (nonDuplicates ds)).map fun s =>
    (nonDuplicates ds).filter fun d => d.source = s

/-- Modelled from the spec's words (claim C3): the number of deals
sharing a given (title, source) pair. -/
def pairCount (ds : List Deal) (t s : List Nat) : Nat :=
  (ds.filter fun d => d.title = t ∧ d.source = s).length

theorem headI_mem_self {α : Type} [Inhabited α] {l : List α} (h : l ≠ []) :
    l.headI ∈ l := by
  cases l with
  | nil => exact absurd rfl h
  | cons x xs => exact List.mem_cons_self x xs

theorem mem_foldl_sources (s : List Nat) :
    ∀ (ds : List Deal) (acc : List (List Nat)),
      s ∈ ds.foldl (fun acc d => if d.source ∈ acc then acc else acc ++ [d.source]) acc ↔
        s ∈ acc ∨ ∃ d ∈ ds, d.source = s := by
  intro ds
  induction ds with
  | nil => intro acc; simp
  | cons d ds ih =>
    intro acc
    rw [List.foldl_cons, ih]
    by_cases hm : d.source ∈ acc
    · rw [if_pos hm]
      constructor
      · rintro (h | ⟨d', hd', hs⟩)
        · exact Or.inl h
        · exact Or.inr ⟨d', List.mem_cons_of_mem _ hd', hs⟩
      · rintro (h | ⟨d', hd', hs⟩)
        · exact Or.inl h
        · rcases List.mem_cons.mp hd' with rfl | hd'
          · exact Or.inl (hs ▸ hm)
          · exact Or.inr ⟨d', hd', hs⟩
    · rw [if_neg hm]
      simp only [List.mem_append, List.mem_singleton]
      constructor
      · rintro ((h | h) | ⟨d', hd', hs⟩)
        · exact Or.inl h
        · exact Or.inr ⟨d, List.mem_cons_self d ds, h.symm⟩
        · exact Or.inr ⟨d', List.mem_cons_of_mem _ hd', hs⟩
      · rintro (h | ⟨d', hd', hs⟩)
        · exact Or.inl (Or.inl h)
        · rcases List.mem_cons.mp hd' with rfl | hd'
          · exact Or.inl (Or.inr hs.symm)
          · exact Or.inr ⟨d', hd', hs⟩

theorem mem_sourcesFirstSeen {s : List Nat} {ds : List Deal} :
    s ∈ sourcesFirstSeen ds ↔ ∃ d ∈ ds, d.source = s := by
  rw [sourcesFirstSeen, mem_foldl_sources]
  simp

theorem mem_nonDuplicates {d : Deal} {ds : List Deal} :
    d ∈ nonDuplicates ds ↔ d ∈ ds ∧ keyCount ds (dealKey d) = 1 := by
  simp [nonDuplicates, List.mem_filter]

/-- C3 amended: survivors are exactly the deals whose concatenated
title_source key occurs exactly once; each emitted group is a nonempty
single-source bucket; the group sources are in first-seen order. -/
theorem postprocess_deals_spec (ds : List Deal) :
    (∀ d, d ∈ (postprocess_deals ds).flatten ↔
        d ∈ ds ∧ keyCount ds (dealKey d) = 1) ∧
    (∀ g ∈ postprocess_deals ds, g ≠ [] ∧ ∀ d ∈ g, d.source = g.headI.source) ∧
    (postprocess_deals ds).map (fun g => g.headI.source)
      = sourcesFirstSeen (nonDuplicates ds) := by
  have hgrp : ∀ s ∈ sourcesFirstSeen (nonDuplicates ds),
      ((nonDuplicates ds).filter fun d => d.source = s) ≠ [] ∧
      (∀ d ∈ (nonDuplicates ds).filter fun d => d.source = s, d.source = s) := by
    intro s hs
    obtain ⟨d, hd, hds⟩ := mem_sourcesFirstSeen.mp hs
    constructor
    · intro hnil
      have : d ∈ (nonDuplicates ds).filter fun d => d.source = s := by
        rw [List.mem_filter]
        exact ⟨hd, by simp [hds]⟩
      rw [hnil] at this
      exact List.not_mem_nil d this
    · intro d' hd'
      have := (List.mem_filter.mp hd').2
      simpa using this
  refine ⟨?_, ?_, ?_⟩
  · intro d
    simp only [postprocess_deals, List.mem_flatten, List.mem_map]
    constructor
    · rintro ⟨g, ⟨s, hs, rfl⟩, hdg⟩
      rw [List.mem_filter] at hdg
      exact mem_nonDuplicates.mp hdg.1
    · intro hd
      have hd' : d ∈ nonDuplicates ds := mem_nonDuplicates.mpr hd
      refine ⟨(nonDuplicates ds).filter fun x => x.source = d.source,
        ⟨d.source, mem_sourcesFirstSeen.mpr ⟨d, hd', rfl⟩, rfl⟩, ?_⟩
      rw [List.mem_filter]
      exact ⟨hd', by simp⟩
  · intro g hg
    simp only [postprocess_deals, List.mem_map] at hg
    obtain ⟨s, hs, rfl⟩ := hg
    obtain ⟨hne, huni⟩ := hgrp s hs
    refine ⟨hne, ?_⟩
    intro d hd
    rw [huni d hd]
    exact (huni _ (headI_mem_self hne)).symm
  · rw [postprocess_deals, List.map_map]
    apply map_eq_self_of_mem
    intro s hs
    obtain ⟨hne, huni⟩ := hgrp s hs
    exact huni _ (headI_mem_self hne)

/-- The two deals of the C3 counterexample: distinct (title, source)
pairs whose concatenated keys coincide ("a_b" + "_" + "c" and
"a" + "_" + "b_c"). -/
def dealTitleAB : Deal :=
  { source := codes "c", title := codes "a_b", link := [], image_link := [],
    discount := none, salePrice := none }

def dealSourceBC : Deal :=
  { source := codes "b_c", title := codes "a", link := [], image_link := [],
    discount := none, salePrice := none }

/-- C3 counterexample: each (title, source) pair occurs exactly once,
yet both deals are dropped, because the code keys on the concatenated
string title_source, which identifies the two pairs. -/
theorem postprocess_deals_counterexample :
    pairCount [dealTitleAB, dealSourceBC] dealTitleAB.title dealTitleAB.source = 1 ∧
    pairCount [dealTitleAB, dealSourceBC] dealSourceBC.title dealSourceBC.source = 1 ∧
    postprocess_deals [dealTitleAB, dealSourceBC] = [] := by
  refine ⟨by decide, by decide, by decide⟩

/-- Witness for the amended C3 theorem at a concrete input. -/
theorem postprocess_deals_spec_witness :
    dealTitleAB ∈ (postprocess_deals [dealTitleAB]).flatten :=
  ((postprocess_deals_spec [dealTitleAB]).1 dealTitleAB).mpr ⟨by simp, by decide⟩

/-! ### Posted-games ledger (utils/helpers.py) -/

/-- helpers.save_posted_games: keep only the last limit titles.  The
Python slice titles[-limit:] is the whole list when limit is 0, and the
last limit elements otherwise. -/
def save_posted_games (titles : List (List Nat)) (limit : Nat) : List (List Nat) :=
  if titles.length > limit then
    if limit = 0 then titles else titles.drop (titles.length - limit)
  else titles

/-- helpers.add_posted_game: load the ledger, append the title, save
with the retention cap. -/
def add_posted_game (title : List Nat) (ledger : List (List Nat)) (limit : Nat) :
    List (List Nat) :=
  save_posted_games (ledger ++ [title]) limit

/-- C4: appending a title to a ledger already at the cap drops the
oldest entry: the result is tail ++ [title], its length stays at the
cap, and the (distinct) oldest title is gone. -/
theorem ledger_eviction (h t : List Nat) (rest : List (List Nat)) (limit : Nat)
    (hlim : (h :: rest).length = limit) (hmem : h ∉ rest) (hne : h ≠ t) :
    add_posted_game t (h :: rest) limit = rest ++ [t] ∧
    (add_posted_game t (h :: rest) limit).length = limit ∧
    h ∉ add_posted_game t (h :: rest) limit := by
  simp only [List.length_cons] at hlim
  have heq : add_posted_game t (h :: rest) limit = rest ++ [t] := by
    unfold add_posted_game save_posted_games
    have hl : ((h :: rest) ++ [t]).length = limit + 1 := by
      simp
      omega
    rw [if_pos (by omega), if_neg (by omega : ¬limit = 0), hl]
    rw [show limit + 1 - limit = 1 from by omega]
    rw [show (h :: rest) ++ [t] = h :: (rest ++ [t]) from rfl]
    simp
  refine ⟨heq, ?_, ?_⟩
  · rw [heq]
    simp
    omega
  · rw [heq]
    intro hc
    rcases List.mem_append.mp hc with hc | hc
    · exact hmem hc
    · exact hne (List.mem_singleton.mp hc)

/-- Witness for C4 at a concrete ledger at its cap. -/
theorem ledger_eviction_witness :
    add_posted_game (codes "g3") [codes "g1", codes "g2"] 2
        = [codes "g2"] ++ [codes "g3"] ∧
    (add_posted_game (codes "g3") [codes "g1", codes "g2"] 2).length = 2 ∧
    codes "g1" ∉ add_posted_game (codes "g3") [codes "g1", codes "g2"] 2 :=
  ledger_eviction (codes "g1") (codes "g3") [codes "g2"] 2
    (by decide) (by decide) (by decide)

/-- C10: with a positive retention limit, for every pre-existing ledger
the saved ledger has at most limit entries and its final entry is the
just-appended title. -/
theorem add_posted_game_bounded (ledger : List (List Nat)) (t : List Nat)
    (limit : Nat) (hpos : 0 < limit) :
    (add_posted_game t ledger limit).length ≤ limit ∧
    (add_posted_game t ledger limit).getLast? = some t := by
  unfold add_posted_game save_posted_games
  by_cases hlen : (ledger ++ [t]).length > limit
  · rw [if_pos hlen, if_neg (by omega : ¬limit = 0)]
    have hlen' : (ledger ++ [t]).length = ledger.length + 1 := by simp
    constructor
    · rw [List.length_drop]
      omega
    · have hk : (ledger ++ [t]).length - limit ≤ ledger.length := by omega
      rw [List.drop_append_of_le_length hk, List.getLast?_concat]
  · rw [if_neg hlen]
    constructor
    · simp only [List.length_append, List.length_singleton] at hlen ⊢
      omega
    · exact List.getLast?_concat ledger

/-- Witness for C10: a ledger longer than the cap, with limit 2. -/
theorem add_posted_game_bounded_witness :
    (add_posted_game (codes "d") [codes "a", codes "b", codes "c"] 2).length ≤ 2 ∧
    (add_posted_game (codes "d") [codes "a", codes "b", codes "c"] 2).getLast?
        = some (codes "d") :=
  add_posted_game_bounded [codes "a", codes "b", codes "c"] (codes "d") 2 (by decide)

/-! ### Posting scheduler (automation/scheduler.py)

The random.randint draws are supplied by a choice function indexed by
the loop iteration; the drawn value is reduced mod the current number of
groups, which ranges over exactly the indices randint(0, len-1) can
produce.  The Twitter sink outcome of each posting iteration is supplied
by an outcome function. -/

/-- config.POSTED_GAMES_LIMIT. -/
def POSTED_GAMES_LIMIT : Nat := 60

/-- config.MIN_DISCOUNT_THRESHOLD. -/
def MIN_DISCOUNT_THRESHOLD : Int := 10

/-- config.POSTS_PER_DAY. -/
def POSTS_PER_DAY : Nat := 6

/-- The local max_attempts bound of _select_unposted_deal. -/
def MAX_SELECT_ATTEMPTS : Nat := 100

/-- The rejection test of _select_unposted_deal: deal["title"] in
posted_games_list or deal.get("discount", 0) <= MIN_DISCOUNT_THRESHOLD. -/
def rejectDeal (posted : List (List Nat)) (d : Deal) : Bool :=
  decide (d.title ∈ posted) || decide (d.discount.getD 0 ≤ MIN_DISCOUNT_THRESHOLD)

/-- Return value of _select_unposted_deal: a deal, or None via the
"no deals left" path or the "max attempts" path. -/
inductive SelOutcome where
  | found (d : Deal)
  | noDeals
  | maxAttempts
deriving DecidableEq

/-- Both None paths map to Python's None. -/
def SelOutcome.toOption : SelOutcome → Option Deal
  | .found d => some d
  | .noDeals => none
  | .maxAttempts => none

/-- deals[rng].pop(0) followed by deleting the group if now empty. -/
def popFront (deals : List (List Deal)) (i : Nat) : List (List Deal) :=
  if (deals.getD i []).tail = [] then deals.eraseIdx i
  else deals.set i (deals.getD i []).tail

theorem popFront_length_le (deals : List (List Deal)) (i : Nat) :
    (popFront deals i).length ≤ deals.length := by
  unfold popFront
  split
  · rw [List.length_eraseIdx]
    split <;> omega
  · rw [List.length_set]

/-- scheduler._select_unposted_deal: bounded retry loop picking a random
group, skipping and deleting empty groups (without counting an attempt),
popping rejected heads (counting an attempt), and returning the first
acceptable head after popping it.  Returns the Python return value
together with the mutated deals list. -/
def select_unposted_deal (c : Nat → Nat) (posted : List (List Nat))
    (deals : List (List Deal)) (attempts step : Nat) :
    SelOutcome × List (List Deal) :=
  if attempts < MAX_SELECT_ATTEMPTS then
    if hdeals : deals = [] then (.noDeals, [])
    else
      let rng := c step % deals.length
      if (deals.getD rng []) = [] then
        select_unposted_deal c posted (deals.eraseIdx rng) attempts (step + 1)
      else
        if rejectDeal posted (deals.getD rng []).headI then
          select_unposted_deal c posted (popFront deals rng) (attempts + 1) (step + 1)
        else (.found (deals.getD rng []).headI, popFront deals rng)
  else (.maxAttempts, deals)
termination_by (MAX_SELECT_ATTEMPTS - attempts) + deals.length
decreasing_by
  · have hlen : 0 < deals.length := List.length_pos.mpr hdeals
    have hrng : c step % deals.length < deals.length := Nat.mod_lt _ hlen
    rw [List.length_eraseIdx]
    split <;> omega
  · have hle := popFront_length_le deals (c step % deals.length)
    rename_i hatt _ _
    omega

theorem getD_mem_of_lt {deals : List (List Deal)} {i : Nat} (h : i < deals.length) :
    deals.getD i [] ∈ deals := by
  rw [List.getD_eq_getElem deals [] h]
  exact List.getElem_mem h

theorem hall_preserved_popFront {posted : List (List Nat)}
    {deals : List (List Deal)} {i : Nat}
    (hall : ∀ g ∈ deals, ∀ d ∈ g, rejectDeal posted d = true) :
    ∀ g ∈ popFront deals i, ∀ d ∈ g, rejectDeal posted d = true := by
  intro g hg d hd
  unfold popFront at hg
  split at hg
  · exact hall g ((List.eraseIdx_sublist deals i).subset hg) d hd
  · rcases List.mem_or_eq_of_mem_set hg with hg' | rfl
    · exact hall g hg' d hd
    · by_cases hi : i < deals.length
      · exact hall _ (getD_mem_of_lt hi) d ((List.tail_sublist _).subset hd)
      · rw [List.getD_eq_default deals [] (Nat.le_of_not_lt hi)] at hd
        simp at hd

/-- C5: when every deal in the working set is already posted or at or
below the discount threshold, selection terminates (the embedding is a
total function) and returns Python's None. -/
theorem select_all_rejected (c : Nat → Nat) (posted : List (List Nat))
    (deals : List (List Deal)) (attempts step : Nat)
    (hall : ∀ g ∈ deals, ∀ d ∈ g, rejectDeal posted d = true) :
    (select_unposted_deal c posted deals attempts step).1.toOption = none := by
  induction deals, attempts, step using select_unposted_deal.induct c posted with
  | case1 attempts step hatt =>
    rw [select_unposted_deal]
    simp [hatt, SelOutcome.toOption]
  | case2 deals attempts step hatt hdeals rng hge ih =>
    rw [select_unposted_deal]
    simp only [if_pos hatt, dif_neg hdeals, if_pos hge]
    exact ih fun g hg d hd =>
      hall g ((List.eraseIdx_sublist deals _).subset hg) d hd
  | case3 deals attempts step hatt hdeals rng hgne hrej ih =>
    rw [select_unposted_deal]
    simp only [if_pos hatt, dif_neg hdeals, if_neg hgne, if_pos hrej]
    exact ih (hall_preserved_popFront hall)
  | case4 deals attempts step hatt hdeals rng hgne hrej =>
    exfalso
    apply hrej
    have hlen : 0 < deals.length := List.length_pos.mpr hdeals
    exact hall _ (getD_mem_of_lt (Nat.mod_lt _ hlen)) _
      (headI_mem_self fun h => hgne h)
  | case5 deals attempts step hatt =>
    rw [select_unposted_deal]
    simp [hatt, SelOutcome.toOption]

/-- A deal whose title is already in the ledger used by the C5 witness. -/
def alreadySeenDeal : Deal :=
  { source := codes "X", title := codes "seen", link := [], image_link := [],
    discount := some 50, salePrice := none }

/-- Witness for C5 at a concrete all-rejected working set. -/
theorem select_all_rejected_witness :
    (select_unposted_deal (fun _ => 0) [codes "seen"]
        [[alreadySeenDeal]] 0 0).1.toOption = none :=
  select_all_rejected (fun _ => 0) [codes "seen"] [[alreadySeenDeal]] 0 0 (by decide)

/-! ### The daily posting loop (scheduler._post_tweets_batch)

One iteration of the while loop: reload the persisted working set and
ledger, select a deal, and on a successful sink call persist the
mutated working set and append the title to the ledger; on a failed
sink call persist nothing and continue; on selection returning None
break out of the loop. -/

/-- The persisted state the loop manipulates, plus the loop counter and
a flag recording that the loop has exited via break. -/
structure BatchState where
  shuffled : List (List Deal)
  ledger : List (List Nat)
  postCount : Nat
  stopped : Bool
deriving DecidableEq

/-- The loop has finished: break was taken or the daily quota reached. -/
def isTerminal (s : BatchState) : Bool :=
  s.stopped || decide (POSTS_PER_DAY ≤ s.postCount)

/-- One iteration of the posting loop.  c supplies this iteration's
random draws, sinkOk this iteration's post_deal_to_twitter outcome.
On sink success the title is appended to the ledger (inside
post_deal_to_twitter) and the mutated working set is saved; on sink
failure nothing is persisted (the mutated in-memory copy is discarded
by the reload at the top of the next iteration). -/
def batchStep (c : Nat → Nat) (sinkOk : Bool) (s : BatchState) : BatchState :=
  if isTerminal s then s
  else
    match select_unposted_deal c s.ledger s.shuffled 0 0 with
    | (.found d, deals') =>
      if sinkOk then
        { shuffled := deals',
          ledger := add_posted_game d.title s.ledger POSTED_GAMES_LIMIT,
          postCount := s.postCount + 1, stopped := false }
      else s
    | (_, _) => { s with stopped := true }

/-- n iterations of the posting loop, drawing iteration i's randomness
and sink outcome from the streams at index i. -/
def batchRun (c : Nat → Nat → Nat) (sink : Nat → Bool) (s : BatchState) :
    Nat → BatchState
  | 0 => s
  | n + 1 => batchStep (c n) (sink n) (batchRun c sink s n)

/-- C6: in an iteration whose selection found a deal and whose sink
reports failure, the persisted working set and ledger are unchanged. -/
theorem post_failure_preserves_state (c : Nat → Nat) (s : BatchState) (d : Deal)
    (deals' : List (List Deal))
    (hterm : isTerminal s = false)
    (hsel : select_unposted_deal c s.ledger s.shuffled 0 0 = (.found d, deals')) :
    batchStep c false s = s := by
  unfold batchStep
  rw [hterm, hsel]
  simp

/-- A postable deal (unposted, discount above the threshold) and the
loop state holding just it, used as the concrete scenario for the
posting-loop theorems. -/
def postableDeal : Deal :=
  { source := codes "X", title := codes "g", link := codes "L",
    image_link := codes "I", discount := some 50, salePrice := none }

def singleDealState : BatchState :=
  { shuffled := [[postableDeal]], ledger := [], postCount := 0, stopped := false }

theorem select_singleDealState :
    select_unposted_deal (fun _ => 0) singleDealState.ledger
        singleDealState.shuffled 0 0 = (.found postableDeal, []) := by
  rw [select_unposted_deal]
  simp [singleDealState, MAX_SELECT_ATTEMPTS, rejectDeal, postableDeal,
    MIN_DISCOUNT_THRESHOLD, popFront]

/-- Witness for C6 at the concrete one-deal state. -/
theorem post_failure_preserves_state_witness :
    batchStep (fun _ => 0) false singleDealState = singleDealState :=
  post_failure_preserves_state (fun _ => 0) singleDealState postableDeal []
    (by decide) select_singleDealState

/-- C7 counterexample: the non-terminal one-deal state is a fixed point
of the loop iteration under a failing sink, so with a sink that always
fails the loop never reaches a terminal state: no quota progress, no
break, for ever. -/
theorem batch_nontermination_counterexample :
    isTerminal singleDealState = false ∧
    batchStep (fun _ => 0) false singleDealState = singleDealState := by
  constructor
  · decide
  · unfold batchStep
    rw [select_singleDealState]
    simp [isTerminal, singleDealState, POSTS_PER_DAY]

/-- A stream shifted by m positions. -/
def shiftFun {α : Type} (f : Nat → α) (m : Nat) : Nat → α := fun i => f (m + i)

theorem batchRun_add (c : Nat → Nat → Nat) (sink : Nat → Bool) (s : BatchState)
    (m : Nat) :
    ∀ k, batchRun c sink s (m + k)
      = batchRun (shiftFun c m) (shiftFun sink m) (batchRun c sink s m) k := by
  intro k
  induction k with
  | zero => rfl
  | succ k ih =>
    rw [Nat.add_succ]
    show batchStep (c (m + k)) (sink (m + k)) (batchRun c sink s (m + k)) = _
    rw [ih]
    rfl

theorem batchStep_progress (c : Nat → Nat) (s : BatchState)
    (h : isTerminal s = false) :
    isTerminal (batchStep c true s) = true ∨
    (batchStep c true s).postCount = s.postCount + 1 := by
  unfold batchStep
  rw [h]
  simp only [Bool.false_eq_true, if_false]
  rcases hsel : select_unposted_deal c s.ledger s.shuffled 0 0 with ⟨out, deals'⟩
  cases out with
  | found d => exact Or.inr rfl
  | noDeals => exact Or.inl (by simp [isTerminal])
  | maxAttempts => exact Or.inl (by simp [isTerminal])

theorem batch_term_of_all_true :
    ∀ (fuel : Nat) (c : Nat → Nat → Nat) (sink : Nat → Bool),
      (∀ i, sink i = true) →
      ∀ s : BatchState, POSTS_PER_DAY ≤ s.postCount + fuel →
      ∃ n, isTerminal (batchRun c sink s n) = true := by
  intro fuel
  induction fuel with
  | zero =>
    intro c sink hs s hq
    refine ⟨0, ?_⟩
    show isTerminal s = true
    unfold isTerminal
    simp
    omega
  | succ fuel ih =>
    intro c sink hs s hq
    by_cases hterm : isTerminal s = true
    · exact ⟨0, hterm⟩
    · have hterm' : isTerminal s = false := by
        simpa using hterm
      have h1 : batchRun c sink s 1 = batchStep (c 0) true s := by
        show batchStep (c 0) (sink 0) s = _
        rw [hs 0]
      rcases batchStep_progress (c 0) s hterm' with hdone | hpc
      · exact ⟨1, by rw [h1]; exact hdone⟩
      · obtain ⟨k, hk⟩ := ih (shiftFun c 1) (shiftFun sink 1)
          (fun i => hs (1 + i)) (batchRun c sink s 1)
          (by rw [h1, hpc]; omega)
        exact ⟨1 + k, by rw [batchRun_add c sink s 1 k]; exact hk⟩

/-- C7 amended: if the posting sink fails only finitely often (succeeds
from iteration N on), the loop reaches a terminal state; and any step
that newly makes the loop terminal does so either because the quota is
reached or because selection returned Python's None (no deals left, or
the attempts cap). -/
theorem batch_terminates (c : Nat → Nat → Nat) (sink : Nat → Bool)
    (s : BatchState) (N : Nat) (hsink : ∀ i, N ≤ i → sink i = true) :
    (∃ n, isTerminal (batchRun c sink s n) = true) ∧
    (∀ n, isTerminal (batchRun c sink s (n + 1)) = true →
      isTerminal (batchRun c sink s n) = true ∨
      POSTS_PER_DAY ≤ (batchRun c sink s (n + 1)).postCount ∨
      (select_unposted_deal (c n) (batchRun c sink s n).ledger
          (batchRun c sink s n).shuffled 0 0).1.toOption = none) := by
  constructor
  · obtain ⟨k, hk⟩ := batch_term_of_all_true POSTS_PER_DAY (shiftFun c N)
      (shiftFun sink N) (fun i => hsink (N + i) (by omega))
      (batchRun c sink s N) (by omega)
    exact ⟨N + k, by rw [batchRun_add c sink s N k]; exact hk⟩
  · intro n hterm
    by_cases hpre : isTerminal (batchRun c sink s n) = true
    · exact Or.inl hpre
    · right
      have hpre' : isTerminal (batchRun c sink s n) = false := by
        simpa using hpre
      have hstep : batchRun c sink s (n + 1)
          = batchStep (c n) (sink n) (batchRun c sink s n) := rfl
      rcases hsel : select_unposted_deal (c n) (batchRun c sink s n).ledger
          (batchRun c sink s n).shuffled 0 0 with ⟨out, deals'⟩
      cases out with
      | found d =>
        by_cases hsk : sink n = true
        · left
          rw [hstep] at hterm ⊢
          unfold batchStep at hterm ⊢
          rw [hpre', hsel] at hterm ⊢
          simp only [Bool.false_eq_true, if_false, hsk, if_true] at hterm ⊢
          unfold isTerminal at hterm
          simpa using hterm
        · exfalso
          have hsk' : sink n = false := by simpa using hsk
          rw [hstep] at hterm
          unfold batchStep at hterm
          rw [hpre', hsel, hsk'] at hterm
          simp only [Bool.false_eq_true, if_false] at hterm
          exact absurd hterm hpre
      | noDeals => right; rfl
      | maxAttempts => right; rfl

/-- Witness for the amended C7 theorem: a sink that always succeeds on
the concrete one-deal state. -/
theorem batch_terminates_witness :
    (∃ n, isTerminal (batchRun (fun _ _ => 0) (fun _ => true)
        singleDealState n) = true) ∧
    (∀ n, isTerminal (batchRun (fun _ _ => 0) (fun _ => true)
        singleDealState (n + 1)) = true →
      isTerminal (batchRun (fun _ _ => 0) (fun _ => true)
          singleDealState n) = true ∨
      POSTS_PER_DAY ≤ (batchRun (fun _ _ => 0) (fun _ => true)
          singleDealState (n + 1)).postCount ∨
      (select_unposted_deal ((fun (_ : Nat) (_ : Nat) => 0) n)
          (batchRun (fun _ _ => 0) (fun _ => true) singleDealState n).ledger
          (batchRun (fun _ _ => 0) (fun _ => true) singleDealState n).shuffled
          0 0).1.toOption = none) :=
  batch_terminates (fun _ _ => 0) (fun _ => true) singleDealState 0
    (fun _ _ => rfl)

/-! ### Browser pool and validation workers
(validation_service.BrowserPool, _validate_deal_worker)

Drivers are identified by numbers.  The pool holds the list of all
created drivers and the list of currently available ones; get_driver
pops from the end of the available list (list.pop), return_driver
appends a driver back when it belongs to the pool.  The lock serializes
access, so a batch is modeled as the sequential composition of the
workers' pool effects; each worker's validation outcome (a validated
deal, a rejection, or a raised exception) is supplied as an oracle. -/

structure BrowserPool where
  drivers : List Nat
  available : List Nat
deriving DecidableEq

/-- BrowserPool.get_driver: pop an available driver or return None. -/
def get_driver (p : BrowserPool) : Option Nat × BrowserPool :=
  match p.available.getLast? with
  | none => (none, p)
  | some d => (some d, { p with available := p.available.dropLast })

/-- BrowserPool.return_driver: append the driver back if it is one of
the pool's drivers. -/
def return_driver (d : Nat) (p : BrowserPool) : BrowserPool :=
  if d ∈ p.drivers then { p with available := p.available ++ [d] }
  else p

/-- The three outcomes the body of _validate_deal can have for one
candidate: a validated deal, an invalid deal (None), or an exception. -/
inductive WorkerOutcome where
  | valid (d : Deal)
  | invalid
  | raised
deriving DecidableEq

/-- The worker's return value for each outcome; exceptions are caught
and turned into None by the except clause. -/
def workerResult : WorkerOutcome → Option Deal
  | .valid d => some d
  | .invalid => none
  | .raised => none

/-- validation_service._validate_deal_worker: skip already-posted deals
without acquiring a driver; otherwise acquire (retries collapse in the
sequential model: availability does not change while waiting), run the
validation, and release the driver in the finally block on every path. -/
def validate_deal_worker (deal : Deal) (posted : List (List Nat))
    (outcome : WorkerOutcome) (p : BrowserPool) : Option Deal × BrowserPool :=
  if deal.title ∈ posted then (none, p)
  else
    match get_driver p with
    | (none, p') => (none, p')
    | (some dr, p') => (workerResult outcome, return_driver dr p')

/-- The pool effect of a whole validation batch: each job is a candidate
deal together with its validation outcome. -/
def run_validation_batch (posted : List (List Nat))
    (jobs : List (Deal × WorkerOutcome)) (p : BrowserPool) : BrowserPool :=
  jobs.foldl (fun pool job => (validate_deal_worker job.1 posted job.2 pool).2) p

/-- BrowserPool.__init__ with pool_size n: every created driver is
available. -/
def mkPool (n : Nat) : BrowserPool :=
  { drivers := List.range n, available := List.range n }

theorem validate_deal_worker_preserves {deal : Deal} {posted : List (List Nat)}
    {outcome : WorkerOutcome} {p : BrowserPool}
    (hsub : ∀ d ∈ p.available, d ∈ p.drivers) :
    (validate_deal_worker deal posted outcome p).2.available.length
        = p.available.length ∧
    (validate_deal_worker deal posted outcome p).2.drivers = p.drivers ∧
    ∀ d ∈ (validate_deal_worker deal posted outcome p).2.available,
      d ∈ (validate_deal_worker deal posted outcome p).2.drivers := by
  have hstep : (validate_deal_worker deal posted outcome p).2 = p ∨
      ∃ d, p.available.getLast? = some d ∧ d ∈ p.drivers ∧
        (validate_deal_worker deal posted outcome p).2
          = { drivers := p.drivers,
              available := p.available.dropLast ++ [d] } := by
    by_cases ht : deal.title ∈ posted
    · left
      simp [validate_deal_worker, ht]
    · rcases hlast : p.available.getLast? with _ | d
      · left
        simp [validate_deal_worker, ht, get_driver, hlast]
      · right
        have hdrv : d ∈ p.drivers := hsub d (List.mem_of_mem_getLast? hlast)
        refine ⟨d, rfl, hdrv, ?_⟩
        simp [validate_deal_worker, ht, get_driver, hlast, return_driver, hdrv]
  rcases hstep with he | ⟨d, hlast, hdrv, he⟩
  · rw [he]
    exact ⟨rfl, rfl, hsub⟩
  · rw [he]
    have havail : p.available ≠ [] := by
      intro hnil
      rw [hnil] at hlast
      simp at hlast
    refine ⟨?_, rfl, ?_⟩
    · simp only [List.length_append, List.length_dropLast, List.length_singleton]
      have := List.length_pos.mpr havail
      omega
    · intro x hx
      rcases List.mem_append.mp hx with hx | hx
      · exact hsub x ((List.dropLast_sublist _).subset hx)
      · rw [List.mem_singleton.mp hx]
        exact hdrv

theorem run_validation_batch_invariant (posted : List (List Nat)) :
    ∀ (jobs : List (Deal × WorkerOutcome)) (p : BrowserPool),
      (∀ d ∈ p.available, d ∈ p.drivers) →
      (run_validation_batch posted jobs p).available.length
        = p.available.length := by
  intro jobs
  induction jobs with
  | nil => intro p _; rfl
  | cons job jobs ih =>
    intro p hsub
    obtain ⟨hlen, hdrv, hsub'⟩ :=
      @validate_deal_worker_preserves job.1 posted job.2 p hsub
    show (run_validation_batch posted jobs
        (validate_deal_worker job.1 posted job.2 p).2).available.length
      = p.available.length
    rw [ih _ hsub', hlen]

/-- C8: after a validation run over any batch of candidates with any
per-candidate outcomes (validated, rejected, or raised), the number of
available sessions equals the pool size. -/
theorem session_pool_release_invariant (n : Nat) (posted : List (List Nat))
    (jobs : List (Deal × WorkerOutcome)) :
    (run_validation_batch posted jobs (mkPool n)).available.length = n := by
  rw [run_validation_batch_invariant posted jobs (mkPool n) (fun d hd => hd)]
  simp [mkPool]

end AffiliateBot
